import Mathlib

/-!
# Verification of the `git-quickprune` branch-pruning tool

Shallow embedding of `src/main.rs`. Rust strings are modelled as `List Char`
(named `Str`); the git subprocess layer is modelled by a `GitEnv` record that
returns, for each git invocation the program makes, the exit status and the
captured output streams.  The program's control flow (`fn main`) is embedded
as the pure function `mainRun`, whose result records everything observable:
whether the run aborted fatally, took the no-op path, or proceeded through
staging-document creation, the editor, and the deletion loops.

The interactive editor is modelled as an arbitrary function `Str → Str`
from the written staging document to the document read back after the editor
exits.  Process-spawn failures and UTF-8 decoding failures (the `?` operators
on `Command::output()` / `String::from_utf8`) are outside the model: `GitEnv`
always yields a completed command with its status and output.
-/

set_option autoImplicit false
set_option maxRecDepth 100000

/-- Rust `String` / `&str`, modelled as its sequence of characters. -/
abbrev Str := List Char

/-- Conversion from a Lean string literal to the model type. -/
def str (s : String) : Str := s.data

/-! ## Rust `str::lines`

`str::lines` splits at `'\n'`, removes a trailing `'\r'` from every line that
was terminated by a `'\n'` (i.e. treats `"\r\n"` as a line ending), and does
not yield a final empty line when the string ends with a line ending. -/

/-- Split at every `'\n'`; always yields at least one (possibly empty) piece,
and a trailing piece for a final `'\n'`. -/
def linesAux : List Char → List (List Char)
  | [] => [[]]
  | c :: rest =>
    if c = '\n' then [] :: linesAux rest
    else (c :: (linesAux rest).headD []) :: (linesAux rest).tail

/-- Remove one trailing `'\r'`, as `str::lines` does for `"\r\n"` endings. -/
def stripCR (l : List Char) : List Char :=
  match l.getLast? with
  | some c => if c = '\r' then l.dropLast else l
  | none => l

/-- Apply `stripCR` to every piece except the last one: only lines that were
actually terminated by a `'\n'` can have a `"\r\n"` ending. -/
def stripCRs : List (List Char) → List (List Char)
  | [] => []
  | [l] => [l]
  | l :: ls => stripCR l :: stripCRs ls

/-- Drop the final piece when it is empty: `str::lines` yields no line after a
final line terminator. -/
def dropTrailingEmpty : List (List Char) → List (List Char)
  | [] => []
  | [l] => if l.isEmpty then [] else [l]
  | l :: ls => l :: dropTrailingEmpty ls

/-- Rust `str::lines`. -/
def rustLines (s : Str) : List Str := dropTrailingEmpty (stripCRs (linesAux s))

/-! ## Rust `str::trim` and `str::trim_start_matches` -/

/-- Rust `char::is_whitespace`: the Unicode `White_Space` property.  The
code points with that property are 0x09-0x0D (tab, LF, VT, FF, CR), 0x20
(space), 0x85 (next line), 0xA0 (no-break space), 0x1680 (ogham space
mark), 0x2000-0x200A (typographic spaces), 0x2028 (line separator), 0x2029
(paragraph separator), 0x202F (narrow no-break space), 0x205F (medium
mathematical space) and 0x3000 (ideographic space).  This is a strict
superset of Lean's ASCII-only `Char.isWhitespace`. -/
def rustIsWhitespace (c : Char) : Bool :=
  let n := c.toNat
  (0x09 ≤ n && n ≤ 0x0D) || n == 0x20 || n == 0x85 || n == 0xA0 ||
  n == 0x1680 || (0x2000 ≤ n && n ≤ 0x200A) || n == 0x2028 || n == 0x2029 ||
  n == 0x202F || n == 0x205F || n == 0x3000

/-- Rust `str::trim`: remove leading and trailing Unicode whitespace. -/
def trimStr (s : Str) : Str :=
  ((s.dropWhile rustIsWhitespace).reverse.dropWhile rustIsWhitespace).reverse

/-- If `pat` leads `s`, the remainder of `s` after it. -/
def dropPat : Str → Str → Option Str
  | [], s => some s
  | _, [] => none
  | p :: ps, c :: cs => if p = c then dropPat ps cs else none

/-- Fuelled worker for `trimStartMatches`. -/
def trimStartMatchesAux (pat : Str) : Nat → Str → Str
  | 0, s => s
  | fuel + 1, s =>
    match dropPat pat s with
    | some rest => if rest.length < s.length then trimStartMatchesAux pat fuel rest else s
    | none => s

/-- Rust `str::trim_start_matches`: repeatedly remove a leading occurrence of
`pat`.  `s.length` fuel suffices since each removal strictly shortens `s`. -/
def trimStartMatches (pat s : Str) : Str := trimStartMatchesAux pat s.length s

/-- Rust `line.starts_with('#')`. -/
def startsWithHash : Str → Bool
  | [] => false
  | c :: _ => c == '#'

/-! ## The modelled git layer and CLI arguments -/

/-- Result of one completed git subprocess: `status.success()` plus the two
captured output streams. -/
structure CmdOut where
  success : Bool
  stdout : Str
  stderr : Str
deriving DecidableEq

/-- Everything the program observes from git during one run.  Each field
models one git invocation; functions are pure, reflecting that the run's
environment does not change underneath it. -/
structure GitEnv where
  /-- `git rev-parse <ref>` -/
  revParse : Str → CmdOut
  /-- stdout of `git branch --format %(refname:short)` -/
  branchListOut : Str
  /-- stdout of `git branch --show-current` -/
  currentBranchOut : Str
  /-- `git merge-tree <remote_main> <branch>` -/
  mergeTree : Str → Str → CmdOut
  /-- stdout of `git cat-file -p <ref>` -/
  catFileP : Str → Str
  /-- `git branch --delete --force <name>` -/
  deleteLocal : Str → CmdOut

/-- The parsed command-line arguments (`struct Cli`). -/
structure Cli where
  main_branch : Str
  also_delete_remote_branches : Bool
  always_open_editor : Bool
  remote : Str

/-! ## The translated source functions -/

/-- `fn ensure_main_branch_exists`: whether `git rev-parse <remote>/<main>`
succeeds (the caller turns `false` into the fatal error). -/
def ensure_main_branch_exists (env : GitEnv) (remote main : Str) : Bool :=
  (env.revParse (remote ++ str "/" ++ main)).success

/-- `fn get_current_branch`: stdout of `git branch --show-current` with the
final byte popped (`Vec::pop`). -/
def get_current_branch (env : GitEnv) : Str :=
  env.currentBranchOut.dropLast

/-- `fn get_local_branches`: the lines of `git branch --format`. -/
def get_local_branches (env : GitEnv) : List Str :=
  rustLines env.branchListOut

/-- The tree hash the code extracts from `git cat-file -p <remote_main>`:
first output line, with a leading `"tree "` stripped. -/
def mainTreeId (env : GitEnv) (remote_main : Str) : Str :=
  trimStartMatches (str "tree ") ((rustLines (env.catFileP remote_main)).headD [])

/-- `fn is_fully_merged`: a failing `git merge-tree` (merge conflict) yields
`false`; otherwise compare the trimmed merged-tree hash against main's
current tree hash.  `true` models the verdict FullyMerged, `false`
NotMerged.  The function is total: the conflict path is `Ok(false)` in the
source, never an error. -/
def is_fully_merged (env : GitEnv) (remote_main branch : Str) : Bool :=
  let merge_tree_output := env.mergeTree remote_main branch
  if !merge_tree_output.success then
    false
  else
    trimStr merge_tree_output.stdout == mainTreeId env remote_main

/-- `static FOOTER`. -/
def FOOTER : Str := str "\n# ^^^^^^^^^^^^^^^^^^^^^^^\n# ! TO BE FORCE-DELETED !\n#\n# Review and edit the above list of branches to be force-deleted.\n# To preserve a branch, remove it from the list or comment it.\n# To delete a commented branch, uncomment it."

/-- `fn should_delete_remote_branch`: fail-status of the first `rev-parse`
means `false` (silent skip); otherwise compare its stdout with the stdout of
a second, **identical** `rev-parse` invocation. -/
def should_delete_remote_branch (env : GitEnv) (remote branch : Str) : Bool :=
  let remote_rev := env.revParse (remote ++ str "/" ++ branch)
  if !remote_rev.success then
    false
  else
    let local_rev := (env.revParse (remote ++ str "/" ++ branch)).stdout
    remote_rev.stdout == local_rev

/-! ## The embedded `fn main` -/

/-- One step of the classification loop in `fn main`: skip `main` and the
current branch, append FullyMerged branches to `branches_to_delete` and the
rest, `"# "`-commented, to `branches_to_keep` (each with `writeln!`'s
newline). -/
def classifyFold (env : GitEnv) (remoteMain current main : Str)
    (acc : Str × Str) (branch : Str) : Str × Str :=
  if branch == main || branch == current then
    acc
  else if is_fully_merged env remoteMain branch then
    (acc.1 ++ branch ++ ['\n'], acc.2)
  else
    (acc.1, acc.2 ++ str "# " ++ branch ++ ['\n'])

/-- The pair `(branches_to_delete, branches_to_keep)` after the loop. -/
def classifyAcc (env : GitEnv) (cli : Cli) : Str × Str :=
  (get_local_branches env).foldl
    (classifyFold env (cli.remote ++ str "/" ++ cli.main_branch)
      (get_current_branch env) cli.main_branch)
    ([], [])

/-- `staging_file_content`: `format!("{}{}{}", branches_to_delete, branches_to_keep, FOOTER)`. -/
def stagingOf (env : GitEnv) (cli : Cli) : Str :=
  (classifyAcc env cli).1 ++ (classifyAcc env cli).2 ++ FOOTER

/-- The parse of the saved staging document (`final_user_selection.lines()
.filter(|line| !line.is_empty() && !line.starts_with('#')).map(str::trim)`). -/
def approvedOf (final_user_selection : Str) : List Str :=
  ((rustLines final_user_selection).filter
    (fun line => !line.isEmpty && !startsWithHash line)).map trimStr

/-- One per-branch outcome line of the local deletion loop: `println!`
("Deleted branch …") on success, `print!` ("Failed to delete branch …" plus
the command's stderr) on failure. -/
inductive Report where
  | deleted (branch : Str)
  | failed (branch : Str) (err : Str)
deriving DecidableEq

/-- What the local deletion loop prints for one approved branch. -/
def reportOf (env : GitEnv) (branch : Str) : Report :=
  let output := env.deleteLocal branch
  if output.success then .deleted branch
  else .failed branch output.stderr

/-- The observable outcome of one run of `fn main`:  `fatal` (main branch
unresolvable, carrying the branch named in the message), `noop` (empty
deletion list without `-e`: the printed notice, no document, no editor, no
deletions), or `completed` (the staging document as written, the document as
read back after the editor, the parsed approved list, the remote branches
actually deleted, and the per-branch local deletion reports, in order). -/
inductive RunResult where
  | fatal (mainName : Str)
  | noop (message : Str)
  | completed (staging edited : Str) (approved : List Str)
      (remoteDeleted : List Str) (reports : List Report)
deriving DecidableEq

/-- The embedded `fn main`.  `edit` maps the staging document that was
written to the document read back once the user's editor exits. -/
def mainRun (env : GitEnv) (cli : Cli) (edit : Str → Str) : RunResult :=
  if !ensure_main_branch_exists env cli.remote cli.main_branch then
    .fatal cli.main_branch
  else if (classifyAcc env cli).1.isEmpty && !cli.always_open_editor then
    .noop (str "Nothing to do. Use -e to force-open the editor.")
  else
    .completed (stagingOf env cli) (edit (stagingOf env cli))
      (approvedOf (edit (stagingOf env cli)))
      (if cli.also_delete_remote_branches then
        (approvedOf (edit (stagingOf env cli))).filter
          (should_delete_remote_branch env cli.remote)
      else [])
      ((approvedOf (edit (stagingOf env cli))).map (reportOf env))

/-! ## Concrete environments used by the witnesses and counterexamples -/

/-- Default CLI invocation: `--main-branch main --remote origin`, no flags. -/
def cliB : Cli := ⟨str "main", false, false, str "origin"⟩

/-- A repository with candidate branches `feat` (merges cleanly, tree equal
to main's) and `wip` (merge conflict), currently on `main`. -/
def envB : GitEnv where
  revParse := fun r => if r == str "origin/main" then ⟨true, str "abc", []⟩ else ⟨false, [], []⟩
  branchListOut := str "feat\nmain\nwip\n"
  currentBranchOut := str "main\n"
  mergeTree := fun _ b => if b == str "feat" then ⟨true, str "T1\n", []⟩ else ⟨false, [], str "conflict"⟩
  catFileP := fun _ => str "tree T1\nparent deadbeef\n"
  deleteLocal := fun _ => ⟨true, [], []⟩

/-- A repository whose single candidate branch is named `#x` (a name git
accepts) and classifies FullyMerged. -/
def envC : GitEnv where
  revParse := fun r => if r == str "origin/main" then ⟨true, str "abc", []⟩ else ⟨false, [], []⟩
  branchListOut := str "main\n#x\n"
  currentBranchOut := str "main\n"
  mergeTree := fun _ _ => ⟨true, str "T1\n", []⟩
  catFileP := fun _ => str "tree T1\nparent deadbeef\n"
  deleteLocal := fun _ => ⟨true, [], []⟩

/-- A repository where no candidate branch is fully merged. -/
def envN : GitEnv where
  revParse := fun r => if r == str "origin/main" then ⟨true, str "abc", []⟩ else ⟨false, [], []⟩
  branchListOut := str "main\nwip\n"
  currentBranchOut := str "main\n"
  mergeTree := fun _ _ => ⟨false, [], str "conflict"⟩
  catFileP := fun _ => str "tree T1\nparent deadbeef\n"
  deleteLocal := fun _ => ⟨true, [], []⟩

/-- A repository with fully merged candidates `aa`, `zz`, `bb` (in that
enumeration order) where force-deleting `zz` fails. -/
def envF : GitEnv where
  revParse := fun r => if r == str "origin/main" then ⟨true, str "abc", []⟩ else ⟨false, [], []⟩
  branchListOut := str "aa\nzz\nbb\nmain\n"
  currentBranchOut := str "main\n"
  mergeTree := fun _ _ => ⟨true, str "T1\n", []⟩
  catFileP := fun _ => str "tree T1\nparent deadbeef\n"
  deleteLocal := fun b => if b == str "zz" then ⟨false, [], str "cannot delete"⟩ else ⟨true, [], []⟩

/-! ## C1, C2: the merge classifier -/

/-- C1: when the merge simulation of a branch into main's remote-tracking
ref succeeds (no conflict), the classifier answers FullyMerged (`true`)
exactly when the resulting merged tree hash — the trimmed `merge-tree`
output — equals main's current tree hash, and NotMerged (`false`) when the
two tree identities differ. -/
theorem merge_classifier_tree_identity (env : GitEnv) (remote_main branch : Str)
    (h : (env.mergeTree remote_main branch).success = true) :
    (trimStr (env.mergeTree remote_main branch).stdout = mainTreeId env remote_main →
      is_fully_merged env remote_main branch = true) ∧
    (trimStr (env.mergeTree remote_main branch).stdout ≠ mainTreeId env remote_main →
      is_fully_merged env remote_main branch = false) := by
  unfold is_fully_merged
  simp only [h, Bool.not_true, Bool.false_eq_true, if_false]
  constructor
  · intro he
    simpa using he
  · intro hne
    simpa using hne

/-- Witness for C1: in `envB`, merging `feat` succeeds with tree `T1`, equal
to main's tree, and the classifier answers FullyMerged. -/
theorem merge_classifier_tree_identity_witness :
    (envB.mergeTree (str "origin/main") (str "feat")).success = true ∧
    is_fully_merged envB (str "origin/main") (str "feat") = true :=
  ⟨by decide,
    (merge_classifier_tree_identity envB (str "origin/main") (str "feat") (by decide)).1
      (by decide)⟩

/-- C2: when the merge simulation reports a conflict (failing exit status),
the classifier answers NotMerged (`false`).  No error escapes and no
recovery is attempted: `is_fully_merged` is total, and on this path it
consults nothing besides the one simulation result. -/
theorem merge_conflict_classifies_not_merged (env : GitEnv) (remote_main branch : Str)
    (h : (env.mergeTree remote_main branch).success = false) :
    is_fully_merged env remote_main branch = false := by
  unfold is_fully_merged
  simp [h]

/-- Witness for C2: in `envB`, merging `wip` conflicts and the classifier
answers NotMerged. -/
theorem merge_conflict_classifies_not_merged_witness :
    (envB.mergeTree (str "origin/main") (str "wip")).success = false ∧
    is_fully_merged envB (str "origin/main") (str "wip") = false :=
  ⟨by decide, merge_conflict_classifies_not_merged envB (str "origin/main") (str "wip") (by decide)⟩

/-! ## C6: the remote-deletion guard -/

/-- C6: `should_delete_remote_branch` returns `false` (a silent skip, not an
error — the function is total) precisely when `git rev-parse` on the
remote-tracking ref fails, and `true` whenever it succeeds: both of its
`rev-parse` invocations are identical, so the synchronization comparison is
a value compared with itself and always passes — staleness is never
detected. -/
theorem remote_guard_always_passes_sync_check (env : GitEnv) (remote branch : Str) :
    should_delete_remote_branch env remote branch =
      (env.revParse (remote ++ str "/" ++ branch)).success := by
  unfold should_delete_remote_branch
  cases h : (env.revParse (remote ++ str "/" ++ branch)).success
  · simp only [h, Bool.not_false, if_true]
  · simp only [h, Bool.not_true, Bool.false_eq_true, if_false, beq_self_eq_true]

/-! ## Structure lemmas about `rustLines` -/

theorem linesAux_ne_nil (s : List Char) : linesAux s ≠ [] := by
  cases s with
  | nil => simp [linesAux]
  | cons c rest =>
    unfold linesAux
    by_cases hc : c = '\n' <;> simp [hc]

theorem linesAux_cons (c : Char) (s : List Char) :
    linesAux (c :: s) =
      if c = '\n' then [] :: linesAux s
      else (c :: (linesAux s).headD []) :: (linesAux s).tail := rfl

theorem linesAux_append (a rest : List Char) (h : '\n' ∉ a) :
    linesAux (a ++ '\n' :: rest) = a :: linesAux rest := by
  induction a with
  | nil => simp [linesAux]
  | cons c a ih =>
    have hc : c ≠ '\n' := fun he => h (he ▸ List.mem_cons_self c a)
    have h' : '\n' ∉ a := fun hm => h (List.mem_cons_of_mem c hm)
    have hstep : (c :: a) ++ '\n' :: rest = c :: (a ++ '\n' :: rest) := rfl
    rw [hstep, linesAux_cons, if_neg hc, ih h']
    simp

theorem stripCR_of_not_cr (l : List Char) (h : l.getLast? ≠ some '\r') : stripCR l = l := by
  unfold stripCR
  cases hl : l.getLast? with
  | none => rfl
  | some c =>
    have : c ≠ '\r' := fun he => h (he ▸ hl)
    simp [this]

theorem stripCRs_cons₂ (l x : List Char) (ls : List (List Char)) :
    stripCRs (l :: x :: ls) = stripCR l :: stripCRs (x :: ls) := rfl

theorem dropTrailingEmpty_cons₂ (l x : List Char) (ls : List (List Char)) :
    dropTrailingEmpty (l :: x :: ls) = l :: dropTrailingEmpty (x :: ls) := rfl

theorem stripCRs_ne_nil (ps : List (List Char)) (h : ps ≠ []) : stripCRs ps ≠ [] := by
  cases ps with
  | nil => exact absurd rfl h
  | cons l ls => cases ls <;> simp [stripCRs]

theorem rustLines_cons (a rest : Str) (h1 : '\n' ∉ a) (h2 : a.getLast? ≠ some '\r') :
    rustLines (a ++ '\n' :: rest) = a :: rustLines rest := by
  unfold rustLines
  rw [linesAux_append a rest h1]
  obtain ⟨p, ps, hps⟩ : ∃ p ps, linesAux rest = p :: ps := by
    cases hl : linesAux rest with
    | nil => exact absurd hl (linesAux_ne_nil rest)
    | cons p ps => exact ⟨p, ps, rfl⟩
  rw [hps, stripCRs_cons₂, stripCR_of_not_cr a h2]
  obtain ⟨q, qs, hq⟩ : ∃ q qs, stripCRs (p :: ps) = q :: qs := by
    cases hl : stripCRs (p :: ps) with
    | nil => exact absurd hl (stripCRs_ne_nil (p :: ps) (by simp))
    | cons q qs => exact ⟨q, qs, rfl⟩
  rw [hq, dropTrailingEmpty_cons₂]

/-- The branch-name lines joined with `'\n'` terminators, as `writeln!`
produces them. -/
def joinLines (ns : List Str) : Str := (ns.map (fun n => n ++ ['\n'])).flatten

theorem rustLines_joinLines (ns : List Str) (rest : Str)
    (h : ∀ n ∈ ns, '\n' ∉ n ∧ n.getLast? ≠ some '\r') :
    rustLines (joinLines ns ++ rest) = ns ++ rustLines rest := by
  induction ns with
  | nil => simp [joinLines]
  | cons n ns ih =>
    obtain ⟨hn1, hn2⟩ := h n (List.mem_cons_self n ns)
    have h' : ∀ m ∈ ns, '\n' ∉ m ∧ m.getLast? ≠ some '\r' :=
      fun m hm => h m (List.mem_cons_of_mem n hm)
    have : joinLines (n :: ns) ++ rest = n ++ '\n' :: (joinLines ns ++ rest) := by
      simp [joinLines, List.append_assoc]
    rw [this, rustLines_cons n (joinLines ns ++ rest) hn1 hn2, ih h']
    rfl

/-! ## Valid branch names

Git branch names accepted by `git check-ref-format` are never empty and
contain no whitespace characters (space and ASCII control characters are
forbidden in refs).  A leading `'#'` IS allowed by git — which is why the
round-trip claim C4 needs to exclude it, see `roundtrip_fails_on_hash_named_branch`. -/

/-- The sanity assumptions on a branch name used by the document theorems:
nonempty, not beginning with `'#'`, and whitespace-free. -/
def validName (b : Str) : Prop :=
  b ≠ [] ∧ b.head? ≠ some '#' ∧ ∀ c ∈ b, ¬ c.isWhitespace

instance (b : Str) : Decidable (validName b) :=
  decidable_of_iff (b ≠ [] ∧ b.head? ≠ some '#' ∧ ∀ c ∈ b, ¬ c.isWhitespace) Iff.rfl

/-- Every ASCII whitespace character is Unicode whitespace. -/
theorem rust_ws_of_ascii_ws (c : Char) (h : c.isWhitespace = true) :
    rustIsWhitespace c = true := by
  simp [Char.isWhitespace] at h
  rcases h with ((rfl | rfl) | rfl) | rfl <;> decide

/-- The stronger name assumption used by the round-trip theorems, which go
through `str::trim`: the name contains no Unicode whitespace at all (git
itself only guarantees absence of ASCII whitespace and control characters —
a name containing e.g. U+00A0 is git-legal, and is excluded here because
the parser's trim would strip it). -/
def validNameRust (b : Str) : Prop :=
  b ≠ [] ∧ b.head? ≠ some '#' ∧ ∀ c ∈ b, ¬ rustIsWhitespace c

instance (b : Str) : Decidable (validNameRust b) :=
  decidable_of_iff (b ≠ [] ∧ b.head? ≠ some '#' ∧ ∀ c ∈ b, ¬ rustIsWhitespace c) Iff.rfl

theorem validName_of_validNameRust (b : Str) (h : validNameRust b) : validName b :=
  ⟨h.1, h.2.1, fun c hc hws => h.2.2 c hc (rust_ws_of_ascii_ws c hws)⟩

theorem dropWhile_rust_ws_eq_self (b : Str) (h : ∀ c ∈ b, ¬ rustIsWhitespace c) :
    b.dropWhile rustIsWhitespace = b := by
  cases b with
  | nil => rfl
  | cons c bs =>
    rw [List.dropWhile_cons]
    simp [h c (List.mem_cons_self c bs)]

theorem trimStr_no_ws (b : Str) (h : ∀ c ∈ b, ¬ rustIsWhitespace c) : trimStr b = b := by
  unfold trimStr
  rw [dropWhile_rust_ws_eq_self b h]
  rw [dropWhile_rust_ws_eq_self b.reverse (fun c hc => h c (List.mem_reverse.mp hc))]
  exact List.reverse_reverse b

theorem getLast?_no_ws_ne_cr (b : Str) (h : ∀ c ∈ b, ¬ c.isWhitespace) :
    b.getLast? ≠ some '\r' := by
  intro hl
  exact h '\r' (List.mem_of_mem_getLast? (Option.mem_def.mpr hl)) (by decide)

theorem newline_not_mem_of_no_ws (b : Str) (h : ∀ c ∈ b, ¬ c.isWhitespace) : '\n' ∉ b :=
  fun hm => h '\n' hm (by decide)

theorem validName_line_facts (b : Str) (h : validName b) :
    '\n' ∉ b ∧ b.getLast? ≠ some '\r' :=
  ⟨newline_not_mem_of_no_ws b h.2.2, getLast?_no_ws_ne_cr b h.2.2⟩

theorem commented_line_facts (b : Str) (h : validName b) :
    '\n' ∉ (str "# " ++ b) ∧ (str "# " ++ b).getLast? ≠ some '\r' := by
  obtain ⟨hne, _, hws⟩ := h
  constructor
  · intro hm
    rcases List.mem_append.mp hm with hm | hm
    · simp [str] at hm
    · exact newline_not_mem_of_no_ws b hws hm
  · rw [List.getLast?_append_of_ne_nil (str "# ") hne]
    exact getLast?_no_ws_ne_cr b hws

/-! ## Characterizing the classification loop -/

/-- The loop's candidate condition: neither main nor the current branch. -/
def isCandidate (current main branch : Str) : Bool :=
  !(branch == main || branch == current)

/-- The classified branches: local branches other than main and the current
branch, in enumeration order. -/
def candidates (env : GitEnv) (cli : Cli) : List Str :=
  (get_local_branches env).filter (isCandidate (get_current_branch env) cli.main_branch)

/-- The candidates classified FullyMerged, in enumeration order. -/
def mergedCands (env : GitEnv) (cli : Cli) : List Str :=
  (candidates env cli).filter
    (is_fully_merged env (cli.remote ++ str "/" ++ cli.main_branch))

/-- The candidates classified NotMerged, in enumeration order. -/
def keptCands (env : GitEnv) (cli : Cli) : List Str :=
  (candidates env cli).filter
    (fun b => !is_fully_merged env (cli.remote ++ str "/" ++ cli.main_branch) b)

theorem classifyFold_spec (env : GitEnv) (rm current main : Str) (bs : List Str) (a k : Str) :
    bs.foldl (classifyFold env rm current main) (a, k) =
      (a ++ joinLines ((bs.filter (isCandidate current main)).filter (is_fully_merged env rm)),
       k ++ joinLines (((bs.filter (isCandidate current main)).filter
         (fun b => !is_fully_merged env rm b)).map (fun b => str "# " ++ b))) := by
  induction bs generalizing a k with
  | nil => simp [joinLines]
  | cons b bs ih =>
    rw [List.foldl_cons]
    cases hskip : (b == main || b == current) with
    | true =>
      have hc : isCandidate current main b = false := by simp [isCandidate, hskip]
      have hstep : classifyFold env rm current main (a, k) b = (a, k) := by
        simp [classifyFold, hskip]
      rw [hstep, ih]
      simp [List.filter_cons, hc]
    | false =>
      have hc : isCandidate current main b = true := by simp [isCandidate, hskip]
      cases hm : is_fully_merged env rm b with
      | true =>
        have hstep : classifyFold env rm current main (a, k) b = (a ++ b ++ ['\n'], k) := by
          simp [classifyFold, hskip, hm]
        rw [hstep, ih]
        simp [List.filter_cons, hc, hm, joinLines, List.append_assoc]
      | false =>
        have hstep : classifyFold env rm current main (a, k) b =
            (a, k ++ str "# " ++ b ++ ['\n']) := by
          simp [classifyFold, hskip, hm]
        rw [hstep, ih]
        simp [List.filter_cons, hc, hm, joinLines, List.append_assoc]

/-- `branches_to_delete` and `branches_to_keep` after the loop, in terms of
the classified candidate lists. -/
theorem classifyAcc_spec (env : GitEnv) (cli : Cli) :
    classifyAcc env cli =
      (joinLines (mergedCands env cli),
       joinLines ((keptCands env cli).map (fun b => str "# " ++ b))) := by
  unfold classifyAcc mergedCands keptCands candidates
  rw [classifyFold_spec]
  simp

/-- The line structure of the staging document, under the git branch-name
sanity assumptions: first the FullyMerged branches as bare lines, then the
NotMerged branches as `"# "`-commented lines, then the footer's lines. -/
theorem staging_lines (env : GitEnv) (cli : Cli)
    (hv : ∀ b ∈ get_local_branches env, validName b) :
    rustLines (stagingOf env cli) =
      (mergedCands env cli ++ (keptCands env cli).map (fun b => str "# " ++ b)) ++
        rustLines FOOTER := by
  have hsub : ∀ b ∈ candidates env cli, validName b := fun b hb =>
    hv b (List.mem_of_mem_filter hb)
  have hM : ∀ n ∈ mergedCands env cli, '\n' ∉ n ∧ n.getLast? ≠ some '\r' := fun n hn =>
    validName_line_facts n (hsub n (List.mem_of_mem_filter hn))
  have hK : ∀ n ∈ (keptCands env cli).map (fun b => str "# " ++ b),
      '\n' ∉ n ∧ n.getLast? ≠ some '\r' := by
    intro n hn
    obtain ⟨b, hb, rfl⟩ := List.mem_map.mp hn
    exact commented_line_facts b (hsub b (List.mem_of_mem_filter hb))
  unfold stagingOf
  rw [classifyAcc_spec]
  dsimp only
  rw [List.append_assoc]
  rw [rustLines_joinLines _ _ hM, rustLines_joinLines _ _ hK]
  rw [List.append_assoc]

/-! ## Inversion of a completed run -/

theorem mainRun_completed_inv (env : GitEnv) (cli : Cli) (edit : Str → Str)
    (s e : Str) (a r : List Str) (l : List Report)
    (h : mainRun env cli edit = .completed s e a r l) :
    s = stagingOf env cli ∧ e = edit (stagingOf env cli) ∧ a = approvedOf e ∧
    r = (if cli.also_delete_remote_branches then
          a.filter (should_delete_remote_branch env cli.remote) else []) ∧
    l = a.map (reportOf env) := by
  unfold mainRun at h
  split_ifs at h with h1 h2 h3
  · injection h with hs he ha hr hl
    subst hs; subst he; subst ha; subst hr; subst hl
    exact ⟨rfl, rfl, rfl, by rw [if_pos h3], rfl⟩
  · injection h with hs he ha hr hl
    subst hs; subst he; subst ha; subst hr; subst hl
    exact ⟨rfl, rfl, rfl, by rw [if_neg h3], rfl⟩

/-- A repository with FullyMerged and NotMerged candidates interleaved in
enumeration order: `feat` (merged), `wip` (conflict), `feat2` (merged). -/
def envG : GitEnv where
  revParse := fun r => if r == str "origin/main" then ⟨true, str "abc", []⟩ else ⟨false, [], []⟩
  branchListOut := str "feat\nwip\nfeat2\nmain\n"
  currentBranchOut := str "main\n"
  mergeTree := fun _ b => if b == str "wip" then ⟨false, [], str "conflict"⟩ else ⟨true, str "T1\n", []⟩
  catFileP := fun _ => str "tree T1\nparent deadbeef\n"
  deleteLocal := fun _ => ⟨true, [], []⟩

/-! ## C10: grouping of active lines before preserved lines -/

/-- C10: in the generated staging document every FullyMerged (active) line
comes before every NotMerged (preserved) line — the two groups are the
order-preserving filters of the `get_local_branches` enumeration, not an
interleaving of it — and the footer lines follow. -/
theorem active_lines_grouped_before_preserved (env : GitEnv) (cli : Cli) (edit : Str → Str)
    (s e : Str) (a r : List Str) (l : List Report)
    (hv : ∀ b ∈ get_local_branches env, validName b)
    (hrun : mainRun env cli edit = .completed s e a r l) :
    rustLines s =
      (mergedCands env cli ++ (keptCands env cli).map (fun b => str "# " ++ b)) ++
        rustLines FOOTER := by
  obtain ⟨hs, -, -, -, -⟩ := mainRun_completed_inv env cli edit s e a r l hrun
  rw [hs]
  exact staging_lines env cli hv

/-- Witness for C10: in `envG` the merged branches `feat`, `feat2` surround
the conflicted `wip` in enumeration order, yet the document groups them
first. -/
theorem active_lines_grouped_before_preserved_witness :
    rustLines (stagingOf envG cliB) =
      (mergedCands envG cliB ++ (keptCands envG cliB).map (fun b => str "# " ++ b)) ++
        rustLines FOOTER :=
  active_lines_grouped_before_preserved envG cliB id (stagingOf envG cliB)
    (stagingOf envG cliB) (approvedOf (stagingOf envG cliB)) []
    ((approvedOf (stagingOf envG cliB)).map (reportOf envG)) (by decide) (by decide)

/-! ## C5: one line per classified branch -/

/-- The single document line a classified branch produces: its bare name if
FullyMerged, its `"# "`-commented name if NotMerged. -/
def renderLine (env : GitEnv) (cli : Cli) (b : Str) : Str :=
  if is_fully_merged env (cli.remote ++ str "/" ++ cli.main_branch) b then b
  else str "# " ++ b

/-- C5: the staging document consists of branch lines followed by the fixed
footer, and the branch lines are, up to the grouping permutation, exactly
one `renderLine` per classified branch — where the classified branches are
precisely the local branches other than main and the current branch
(`candidates`), and a line is active (bare) iff the branch is FullyMerged. -/
theorem review_document_one_line_per_candidate (env : GitEnv) (cli : Cli) (edit : Str → Str)
    (s e : Str) (a r : List Str) (l : List Report)
    (hv : ∀ b ∈ get_local_branches env, validName b)
    (hrun : mainRun env cli edit = .completed s e a r l) :
    rustLines s =
      (mergedCands env cli ++ (keptCands env cli).map (fun b => str "# " ++ b)) ++
        rustLines FOOTER ∧
    (mergedCands env cli ++ (keptCands env cli).map (fun b => str "# " ++ b)).Perm
      ((candidates env cli).map (renderLine env cli)) := by
  obtain ⟨hs, -, -, -, -⟩ := mainRun_completed_inv env cli edit s e a r l hrun
  refine ⟨hs ▸ staging_lines env cli hv, ?_⟩
  have hperm := (List.filter_append_perm
    (is_fully_merged env (cli.remote ++ str "/" ++ cli.main_branch))
    (candidates env cli)).map (renderLine env cli)
  rw [List.map_append] at hperm
  have h1 : ((candidates env cli).filter
      (is_fully_merged env (cli.remote ++ str "/" ++ cli.main_branch))).map
        (renderLine env cli) = mergedCands env cli := by
    have hmc : ∀ b ∈ (candidates env cli).filter
        (is_fully_merged env (cli.remote ++ str "/" ++ cli.main_branch)),
        renderLine env cli b = id b := by
      intro b hb
      have hpb := List.of_mem_filter hb
      simp only [List.append_assoc] at hpb
      simp [renderLine, hpb]
    rw [List.map_congr_left hmc, List.map_id]
    rfl
  have h2 : ((candidates env cli).filter
      (fun b => !is_fully_merged env (cli.remote ++ str "/" ++ cli.main_branch) b)).map
        (renderLine env cli) = (keptCands env cli).map (fun b => str "# " ++ b) := by
    have hkc : ∀ b ∈ (candidates env cli).filter
        (fun b => !is_fully_merged env (cli.remote ++ str "/" ++ cli.main_branch) b),
        renderLine env cli b = str "# " ++ b := by
      intro b hb
      have hfb := List.of_mem_filter hb
      simp only [Bool.not_eq_true'] at hfb
      simp only [List.append_assoc] at hfb
      simp [renderLine, hfb]
    rw [List.map_congr_left hkc]
    rfl
  rw [h1, h2] at hperm
  exact hperm

/-- Witness for C5, at `envG`. -/
theorem review_document_one_line_per_candidate_witness :
    rustLines (stagingOf envG cliB) =
      (mergedCands envG cliB ++ (keptCands envG cliB).map (fun b => str "# " ++ b)) ++
        rustLines FOOTER ∧
    (mergedCands envG cliB ++ (keptCands envG cliB).map (fun b => str "# " ++ b)).Perm
      ((candidates envG cliB).map (renderLine envG cliB)) :=
  review_document_one_line_per_candidate envG cliB id (stagingOf envG cliB)
    (stagingOf envG cliB) (approvedOf (stagingOf envG cliB)) []
    ((approvedOf (stagingOf envG cliB)).map (reportOf envG)) (by decide) (by decide)

/-! ## C4: round-trip of the unedited document -/

theorem isEmpty_eq_false_of_ne_nil (b : Str) (h : b ≠ []) : b.isEmpty = false := by
  cases b with
  | nil => exact absurd rfl h
  | cons _ _ => rfl

theorem startsWithHash_eq_false_of_head (b : Str) (h : b.head? ≠ some '#') :
    startsWithHash b = false := by
  cases b with
  | nil => rfl
  | cons c cs =>
    have hc : c ≠ '#' := fun he => h (by rw [List.head?_cons, he])
    simpa [startsWithHash] using hc

theorem startsWithHash_commented (b : Str) : startsWithHash (str "# " ++ b) = true := rfl

/-- The footer contributes nothing to the parsed deletion set: its first
line is empty and every other line starts with `'#'`. -/
theorem footer_lines_filtered :
    (rustLines FOOTER).filter (fun line => !line.isEmpty && !startsWithHash line) = [] := by
  decide

/-- C4 (amended): when every local branch name is nonempty, free of Unicode
whitespace (which `str::trim` strips) and does not begin with `'#'`,
parsing the staging document exactly as generated (identity edit) yields a
deletion list exactly equal to the list of branches classified FullyMerged;
in particular no footer line and no preserved line is parsed as an approved
deletion.  (The `'#'` proviso is forced: see
`roundtrip_fails_on_hash_named_branch`; git itself rules out ASCII
whitespace in names but not e.g. U+00A0, which trimming would also strip.) -/
theorem unedited_document_roundtrip (env : GitEnv) (cli : Cli)
    (s e : Str) (a r : List Str) (l : List Report)
    (hv : ∀ b ∈ get_local_branches env, validNameRust b)
    (hrun : mainRun env cli id = .completed s e a r l) :
    a = mergedCands env cli := by
  obtain ⟨-, he, ha, -, -⟩ := mainRun_completed_inv env cli id s e a r l hrun
  rw [ha, he]
  show approvedOf (stagingOf env cli) = mergedCands env cli
  have hvA : ∀ b ∈ get_local_branches env, validName b := fun b hb =>
    validName_of_validNameRust b (hv b hb)
  have hsub : ∀ b ∈ candidates env cli, validNameRust b := fun b hb =>
    hv b (List.mem_of_mem_filter hb)
  have hMv : ∀ b ∈ mergedCands env cli, validNameRust b := fun b hb =>
    hsub b (List.mem_of_mem_filter hb)
  unfold approvedOf
  rw [staging_lines env cli hvA]
  rw [List.filter_append, List.filter_append]
  have hMfilter : (mergedCands env cli).filter
      (fun line => !line.isEmpty && !startsWithHash line) = mergedCands env cli := by
    refine List.filter_eq_self.mpr (fun b hb => ?_)
    obtain ⟨hne, hh, -⟩ := hMv b hb
    rw [isEmpty_eq_false_of_ne_nil b hne, startsWithHash_eq_false_of_head b hh]
    rfl
  have hKfilter : ((keptCands env cli).map (fun b => str "# " ++ b)).filter
      (fun line => !line.isEmpty && !startsWithHash line) = [] := by
    refine List.filter_eq_nil_iff.mpr (fun n hn => ?_)
    obtain ⟨b, -, rfl⟩ := List.mem_map.mp hn
    rw [startsWithHash_commented b]
    simp
  rw [hMfilter, hKfilter, footer_lines_filtered]
  rw [List.append_nil, List.append_nil]
  refine (List.map_congr_left (fun b hb => trimStr_no_ws b (hMv b hb).2.2)).trans
    (List.map_id (mergedCands env cli))

/-- Witness for C4 (amended), at `envB`: the unedited document parses back
to exactly `[feat]`, the FullyMerged list. -/
theorem unedited_document_roundtrip_witness :
    approvedOf (stagingOf envB cliB) = mergedCands envB cliB :=
  unedited_document_roundtrip envB cliB (stagingOf envB cliB) (stagingOf envB cliB)
    (approvedOf (stagingOf envB cliB)) []
    ((approvedOf (stagingOf envB cliB)).map (reportOf envB)) (by decide) (by decide)

/-- Counterexample for C4 as stated: git accepts the branch name `#x`; when
such a branch classifies FullyMerged, its bare document line starts with
`'#'`, the parser reads it back as a comment, and the deletion set of the
unedited document (empty) is NOT equal to the FullyMerged set (`[#x]`). -/
theorem roundtrip_fails_on_hash_named_branch :
    mainRun envC cliB id =
      RunResult.completed (stagingOf envC cliB) (stagingOf envC cliB) [] [] [] ∧
    mergedCands envC cliB = [str "#x"] ∧
    ([] : List Str) ≠ [str "#x"] :=
  ⟨by decide, by decide, by decide⟩

/-! ## C3: the deletion set comes from the edited document alone -/

/-- Spec-side reading of C3's first clause, following the spec's words: the
approved deletions are exactly the document's non-empty, non-comment lines
themselves (no trimming). -/
def specApprovedLines (doc : Str) : List Str :=
  (rustLines doc).filter (fun line => !line.isEmpty && !startsWithHash line)

/-- C3 (amended): the approved deletion list of any completed run is exactly
the **trimmed** non-empty, non-comment lines of the edited document, and it
depends only on the edited document's contents — two runs (any
environments, any classifications) whose edited documents coincide have the
same deletion list.  Hence commenting a line withdraws its branch and
uncommenting a line approves it, regardless of classification. -/
theorem deletion_set_from_edited_document
    (env env2 : GitEnv) (cli cli2 : Cli) (edit edit2 : Str → Str)
    (s e : Str) (a r : List Str) (l : List Report)
    (s2 e2 : Str) (a2 r2 : List Str) (l2 : List Report)
    (h1 : mainRun env cli edit = .completed s e a r l)
    (h2 : mainRun env2 cli2 edit2 = .completed s2 e2 a2 r2 l2) :
    a = (specApprovedLines e).map trimStr ∧ (e = e2 → a = a2) := by
  obtain ⟨-, -, ha, -, -⟩ := mainRun_completed_inv env cli edit s e a r l h1
  obtain ⟨-, -, ha2, -, -⟩ := mainRun_completed_inv env2 cli2 edit2 s2 e2 a2 r2 l2 h2
  constructor
  · rw [ha]
    rfl
  · intro hee
    rw [ha, ha2, hee]

/-- The edit functions used in C3's witness and counterexample. -/
def editZ : Str → Str := fun _ => str "z\n"

/-- An edit that replaces the document with one whitespace-padded line. -/
def editX : Str → Str := fun _ => str "x \n"

/-- Witness for C3 (amended): two runs in different repositories with
different classifications, both edited to the same document `"z\n"`,
produce the same deletion list, namely the trimmed qualifying lines. -/
theorem deletion_set_from_edited_document_witness :
    approvedOf (str "z\n") = (specApprovedLines (str "z\n")).map trimStr ∧
    (str "z\n" = str "z\n" → approvedOf (str "z\n") = approvedOf (str "z\n")) :=
  deletion_set_from_edited_document envB envC cliB cliB editZ editZ
    (stagingOf envB cliB) (str "z\n") (approvedOf (str "z\n")) []
    ((approvedOf (str "z\n")).map (reportOf envB))
    (stagingOf envC cliB) (str "z\n") (approvedOf (str "z\n")) []
    ((approvedOf (str "z\n")).map (reportOf envC))
    (by decide) (by decide)

/-- Counterexample for C3's literal first clause: for the saved document
`"x \n"` (one line `"x "`), the run's deletion set is `[x]` — the trimmed
name — which is not the set of qualifying document lines `["x "]`
themselves. -/
theorem untrimmed_lines_claim_false :
    mainRun envB cliB editX =
      RunResult.completed (stagingOf envB cliB) (str "x \n") [str "x"] []
        [Report.deleted (str "x")] ∧
    specApprovedLines (str "x \n") = [str "x "] ∧
    ([str "x"] : List Str) ≠ [str "x "] :=
  ⟨by decide, by decide, by decide⟩

/-! ## C7: nothing to delete, no `-e` flag -/

/-- C7: when no candidate classifies FullyMerged and `--always-open-editor`
is absent (and the main branch resolves, so the run does not abort first),
the run takes the no-op path: it prints the notice and returns `Ok` without
creating a staging document, invoking an editor, or deleting anything —
captured by the `noop` result, which carries none of those actions. -/
theorem empty_fullymerged_skips_editor (env : GitEnv) (cli : Cli) (edit : Str → Str)
    (hmain : ensure_main_branch_exists env cli.remote cli.main_branch = true)
    (hempty : mergedCands env cli = [])
    (hflag : cli.always_open_editor = false) :
    mainRun env cli edit = .noop (str "Nothing to do. Use -e to force-open the editor.") := by
  have hdel : (classifyAcc env cli).1 = [] := by
    rw [classifyAcc_spec]
    dsimp only
    rw [hempty]
    rfl
  unfold mainRun
  rw [hmain, hdel, hflag]
  rfl

/-- Witness for C7, at `envN` (every candidate conflicts). -/
theorem empty_fullymerged_skips_editor_witness :
    ensure_main_branch_exists envN cliB.remote cliB.main_branch = true ∧
    mergedCands envN cliB = [] ∧
    mainRun envN cliB id = RunResult.noop (str "Nothing to do. Use -e to force-open the editor.") :=
  ⟨by decide, by decide,
    empty_fullymerged_skips_editor envN cliB id (by decide) (by decide) (by decide)⟩

/-! ## C8: local deletion outcomes are independent -/

/-- C8: a completed run emits exactly one report per approved branch — the
whole approved list is processed, so a failure never stops the remaining
branches — and each report carries the branch name, a failing delete also
carrying the underlying stderr text. -/
theorem local_deletions_independent (env : GitEnv) (cli : Cli) (edit : Str → Str)
    (s e : Str) (a r : List Str) (l : List Report)
    (hrun : mainRun env cli edit = .completed s e a r l) :
    l = a.map (reportOf env) ∧
    l.length = a.length ∧
    ∀ b ∈ a, ((env.deleteLocal b).success = true → Report.deleted b ∈ l) ∧
      ((env.deleteLocal b).success = false →
        Report.failed b (env.deleteLocal b).stderr ∈ l) := by
  obtain ⟨-, -, -, -, hl⟩ := mainRun_completed_inv env cli edit s e a r l hrun
  subst hl
  refine ⟨rfl, List.length_map a (reportOf env), fun b hb => ⟨fun hsucc => ?_, fun hfail => ?_⟩⟩
  · exact List.mem_map.mpr ⟨b, hb, by simp [reportOf, hsucc]⟩
  · exact List.mem_map.mpr ⟨b, hb, by simp [reportOf, hfail]⟩

/-- Witness for C8, at `envF`: deleting `zz` fails with its stderr text, and
`bb`, which comes after `zz` in the approved list, is still processed. -/
theorem local_deletions_independent_witness :
    ((approvedOf (stagingOf envF cliB)).map (reportOf envF)).length
        = (approvedOf (stagingOf envF cliB)).length ∧
    Report.failed (str "zz") (envF.deleteLocal (str "zz")).stderr
        ∈ (approvedOf (stagingOf envF cliB)).map (reportOf envF) ∧
    Report.deleted (str "bb") ∈ (approvedOf (stagingOf envF cliB)).map (reportOf envF) := by
  have h := local_deletions_independent envF cliB id (stagingOf envF cliB)
    (stagingOf envF cliB) (approvedOf (stagingOf envF cliB)) []
    ((approvedOf (stagingOf envF cliB)).map (reportOf envF)) (by decide)
  exact ⟨h.2.1, (h.2.2 (str "zz") (by decide)).2 (by decide),
    (h.2.2 (str "bb") (by decide)).1 (by decide)⟩

/-! ## C9: the comment filter runs before trimming -/

theorem rustLines_single (x : Str) (h1 : '\n' ∉ x) (h2 : x.getLast? ≠ some '\r') :
    rustLines (x ++ ['\n']) = [x] := by
  have heq : x ++ ['\n'] = x ++ '\n' :: [] := rfl
  rw [heq, rustLines_cons x [] h1 h2]
  rfl

theorem trimStr_name_space (name : Str) (hne : name ≠ [])
    (h : ∀ c ∈ name, ¬ rustIsWhitespace c) : trimStr (name ++ [' ']) = name := by
  unfold trimStr
  have h1 : (name ++ [' ']).dropWhile rustIsWhitespace = name ++ [' '] := by
    cases name with
    | nil => exact absurd rfl hne
    | cons c cs =>
      rw [List.cons_append, List.dropWhile_cons]
      simp [h c (List.mem_cons_self c cs)]
  rw [h1, List.reverse_append]
  have h2 : (([' '] : Str).reverse ++ name.reverse) = ' ' :: name.reverse := rfl
  rw [h2, List.dropWhile_cons]
  rw [if_pos (by decide : (rustIsWhitespace ' ') = true)]
  rw [dropWhile_rust_ws_eq_self name.reverse (fun c hc => h c (List.mem_reverse.mp hc))]
  exact List.reverse_reverse name

theorem trimStr_space_name (name : Str) (h : ∀ c ∈ name, ¬ rustIsWhitespace c) :
    trimStr (' ' :: name) = name := by
  unfold trimStr
  rw [List.dropWhile_cons, if_pos (by decide : (rustIsWhitespace ' ') = true)]
  rw [dropWhile_rust_ws_eq_self name h]
  rw [dropWhile_rust_ws_eq_self name.reverse (fun c hc => h c (List.mem_reverse.mp hc))]
  exact List.reverse_reverse name

theorem trimStr_space_hash (name : Str) (hne : name ≠ [])
    (h : ∀ c ∈ name, ¬ rustIsWhitespace c) :
    trimStr (' ' :: '#' :: ' ' :: name) = '#' :: ' ' :: name := by
  unfold trimStr
  rw [List.dropWhile_cons, if_pos (by decide : (rustIsWhitespace ' ') = true)]
  rw [List.dropWhile_cons, if_neg (by decide : ¬ ((rustIsWhitespace '#') = true))]
  have hrev : ('#' :: ' ' :: name).reverse = name.reverse ++ [' ', '#'] := by simp
  rw [hrev]
  have hdrop : (name.reverse ++ [' ', '#']).dropWhile rustIsWhitespace =
      name.reverse ++ [' ', '#'] := by
    cases hn : name.reverse with
    | nil => exact absurd (List.reverse_eq_nil_iff.mp hn) hne
    | cons c cs =>
      rw [List.cons_append, List.dropWhile_cons]
      have hc : c ∈ name := List.mem_reverse.mp (hn ▸ List.mem_cons_self c cs)
      simp [h c hc]
  rw [hdrop, ← hrev, List.reverse_reverse]

/-- C9: branch names parsed from the saved document are trimmed, but the
comment filter runs **before** trimming and tests only the line's first
character.  So a line `"name "` or `" name"` approves deletion of `name`,
while a line `" # name"` — whitespace before the `'#'` — is NOT a comment:
it is approved for deletion under the trimmed name `"# name"`, which begins
with `'#'`. -/
theorem trim_after_comment_filter (name : Str) (hv : validNameRust name) :
    approvedOf (name ++ [' ', '\n']) = [name] ∧
    approvedOf (' ' :: (name ++ ['\n'])) = [name] ∧
    approvedOf (' ' :: '#' :: ' ' :: (name ++ ['\n'])) = ['#' :: ' ' :: name] := by
  obtain ⟨hne, hh, hwsR⟩ := hv
  have hws : ∀ c ∈ name, ¬ c.isWhitespace :=
    fun c hc hx => hwsR c hc (rust_ws_of_ascii_ws c hx)
  refine ⟨?_, ?_, ?_⟩
  · have hx1 : '\n' ∉ name ++ [' '] := by
      intro hm
      rcases List.mem_append.mp hm with hm | hm
      · exact newline_not_mem_of_no_ws name hws hm
      · simp at hm
    have hx2 : (name ++ [' ']).getLast? ≠ some '\r' := by
      rw [List.getLast?_append_of_ne_nil name (by simp : ([' '] : Str) ≠ [])]
      decide
    have heq : name ++ [' ', '\n'] = (name ++ [' ']) ++ ['\n'] := by simp
    unfold approvedOf
    rw [heq, rustLines_single (name ++ [' ']) hx1 hx2]
    have hp : (!(name ++ [' ']).isEmpty && !startsWithHash (name ++ [' '])) = true := by
      rw [isEmpty_eq_false_of_ne_nil (name ++ [' ']) (by simp)]
      cases name with
      | nil => exact absurd rfl hne
      | cons c cs =>
        have hc : c ≠ '#' := fun hcc => hh (by rw [List.head?_cons, hcc])
        have hsw : startsWithHash (c :: (cs ++ [' '])) = false := by
          simpa [startsWithHash] using hc
        show (!false && !startsWithHash (c :: (cs ++ [' ']))) = true
        rw [hsw]
        rfl
    rw [List.filter_cons, if_pos hp]
    rw [List.filter_nil, List.map_cons, List.map_nil, trimStr_name_space name hne hwsR]
  · have hx1 : '\n' ∉ ' ' :: name := by
      intro hm
      rcases List.mem_cons.mp hm with hm | hm
      · exact absurd hm.symm (by decide)
      · exact newline_not_mem_of_no_ws name hws hm
    have hx2 : (' ' :: name).getLast? ≠ some '\r' := by
      have : ' ' :: name = [' '] ++ name := rfl
      rw [this, List.getLast?_append_of_ne_nil [' '] hne]
      exact getLast?_no_ws_ne_cr name hws
    have heq : ' ' :: (name ++ ['\n']) = (' ' :: name) ++ ['\n'] := rfl
    unfold approvedOf
    rw [heq, rustLines_single (' ' :: name) hx1 hx2]
    have hp : (!(' ' :: name).isEmpty && !startsWithHash (' ' :: name)) = true := rfl
    rw [List.filter_cons, if_pos hp]
    rw [List.filter_nil, List.map_cons, List.map_nil, trimStr_space_name name hwsR]
  · have hx1 : '\n' ∉ ' ' :: '#' :: ' ' :: name := by
      intro hm
      rcases List.mem_cons.mp hm with hm | hm
      · exact absurd hm.symm (by decide)
      rcases List.mem_cons.mp hm with hm | hm
      · exact absurd hm.symm (by decide)
      rcases List.mem_cons.mp hm with hm | hm
      · exact absurd hm.symm (by decide)
      · exact newline_not_mem_of_no_ws name hws hm
    have hx2 : (' ' :: '#' :: ' ' :: name).getLast? ≠ some '\r' := by
      have heq2 : ' ' :: '#' :: ' ' :: name = [' ', '#', ' '] ++ name := rfl
      rw [heq2, List.getLast?_append_of_ne_nil [' ', '#', ' '] hne]
      exact getLast?_no_ws_ne_cr name hws
    have heq : ' ' :: '#' :: ' ' :: (name ++ ['\n']) = (' ' :: '#' :: ' ' :: name) ++ ['\n'] := rfl
    unfold approvedOf
    rw [heq, rustLines_single (' ' :: '#' :: ' ' :: name) hx1 hx2]
    have hp : (!(' ' :: '#' :: ' ' :: name).isEmpty &&
        !startsWithHash (' ' :: '#' :: ' ' :: name)) = true := rfl
    rw [List.filter_cons, if_pos hp]
    rw [List.filter_nil, List.map_cons, List.map_nil, trimStr_space_hash name hne hwsR]

/-- Witness for C9 at the branch name `x`: `"x \n"` and `" x\n"` both
approve `x`; `" # x\n"` approves the `'#'`-initial name `"# x"`. -/
theorem trim_after_comment_filter_witness :
    approvedOf (str "x" ++ [' ', '\n']) = [str "x"] ∧
    approvedOf (' ' :: (str "x" ++ ['\n'])) = [str "x"] ∧
    approvedOf (' ' :: '#' :: ' ' :: (str "x" ++ ['\n'])) = ['#' :: ' ' :: str "x"] :=
  trim_after_comment_filter (str "x") (by decide)
